import Mathlib

/-!
# Verification of the directory scanner and its record transforms

Shallow embedding of the file scanner (`Core/scanner.py`) and of the pure
record transforms (`utils.py`).

Modelling conventions:
* Python strings are modelled as lists of characters (`Str := List Char`).
* An absolute filesystem path is modelled as the list of its components,
  ordered from the filesystem root downward.  The filesystem root itself has
  the empty name (as in `pathlib`, where `Path("/").name == ""`), so it is
  not carried in the component list; a component list `["home", "u"]` stands
  for the absolute path `/home/u`.
* A directory tree is a term of the inductive type `FSNode`.  OS-level
  failures are explicit in the input data: a directory whose listing raises
  `PermissionError`/`OSError` carries `none` instead of its child list, a
  file whose `stat` fails carries `statOk = false`, and the two reads a file
  may undergo (the binary probe and the text preview read) are `Option`
  fields that are `none` when the corresponding `open`/`read` fails.
* File bytes are modelled as natural numbers (a NUL byte is `0`); decoded
  text is a list of characters.  Python's lenient `errors="ignore"` decoding
  never fails, so decoding is the identity on the modelled text and cannot
  raise.
-/

/-- Python strings are modelled as lists of characters. -/
abbrev Str := List Char

/-- `name.startswith('.')` for our string model. -/
def startsWithDot : Str → Bool
  | [] => false
  | c :: _ => c = '.'

/-- `FileScanner._is_hidden(name, parent)`: hidden if the entry's own name
begins with `'.'`, or if any ancestor directory — walking upward from the
containing directory all the way to the filesystem root — has a name
beginning with `'.'`.  The Python loop also inspects the filesystem root
itself, whose `pathlib` name is the empty string and hence never begins with
a dot, so checking the component list is an exact translation. -/
def isHidden (name : Str) (parent : List Str) : Bool :=
  startsWithDot name || parent.any startsWithDot

/-- The observable state of one regular file: its `stat` size and
timestamps, plus the outcomes of the two bounded reads the scanner may
perform on it.  `bytes` is the raw content visible to the binary probe
(`none` when that `open`/`read` raises), `text` is the leniently decoded
content visible to the preview read (`none` when that read raises). -/
structure FileInfo where
  size : Nat
  ctime : Int
  mtime : Int
  bytes : Option (List Nat)
  text : Option Str
deriving DecidableEq

/-- A directory tree entry, as `os.scandir` sees it.
* `file name statOk info` — a regular file; `statOk = false` means
  `path.stat()` raises and the scanner skips the file.
* `dir name listing` — a directory; `listing = none` means `os.scandir`
  raises and the subtree is silently skipped.
* `other name` — sockets, FIFOs, devices, symlinks that are not followed:
  entries that are neither a regular file nor a descendable directory and
  are ignored by the traversal. -/
inductive FSNode where
  | file (name : Str) (statOk : Bool) (info : FileInfo)
  | dir (name : Str) (listing : Option (List FSNode))
  | other (name : Str)

/-- One item produced by `_iter_paths`: the containing directory (as a
component list from the filesystem root), the entry name, and the file's
observable state. -/
structure Yield where
  dir : List Str
  name : Str
  statOk : Bool
  info : FileInfo
deriving DecidableEq

mutual
/-- One step of `FileScanner._iter_paths`, for a single directory entry.
The hidden check runs before the entry type is inspected; entries of other
types contribute nothing whether or not they are hidden. -/
def iterNode (includeHidden : Bool) (dp : List Str) : FSNode → List Yield
  | .file name ok info =>
      if !includeHidden && isHidden name dp then [] else [⟨dp, name, ok, info⟩]
  | .dir name listing =>
      if !includeHidden && isHidden name dp then []
      else
        match listing with
        | none => []
        | some l => iterList includeHidden (dp ++ [name]) l
  | .other _ => []

/-- `FileScanner._iter_paths` over the entry list of one directory. -/
def iterList (includeHidden : Bool) (dp : List Str) : List FSNode → List Yield
  | [] => []
  | n :: rest => iterNode includeHidden dp n ++ iterList includeHidden dp rest
end

/-- Characters strictly after the last `'.'` of a name, or `none` when the
name contains no dot.  This is the list-level counterpart of
`name.rfind('.')` used by `pathlib`. -/
def afterLastDot : Str → Option Str
  | [] => none
  | c :: rest =>
    match afterLastDot rest with
    | some s => some s
    | none => if c = '.' then some rest else none

/-- `pathlib.PurePath.suffix` of a final path component: with
`i = name.rfind('.')`, the result is `name[i:]` when `0 < i < len(name) - 1`
and the empty string otherwise.  Writing `s` for the characters after the
last dot, `i = len(name) - len(s) - 1`, so the two inequalities become
`len(s) + 1 < len(name)` and `s ≠ []`. -/
def pySuffix (name : Str) : Str :=
  match afterLastDot name with
  | none => []
  | some s => if s ≠ [] ∧ s.length + 1 < name.length then '.' :: s else []

/-- Python `str.lower`, restricted to the basic latin range (the only range
`Char.toLower` affects, which matches Python on ASCII names). -/
def pyLower (s : Str) : Str := s.map Char.toLower

/-- `path.suffix[1:].lower() if path.suffix else ""` from
`FileScanner.path_to_metadata`. -/
def extensionOf (name : Str) : Str :=
  match pySuffix name with
  | [] => []
  | _ :: s => pyLower s

/-- `FileScanner.SMALL_PREVIEW_LIMIT`. -/
def SMALL_PREVIEW_LIMIT : Nat := 1000000

/-- `FileScanner.PREVIEW_CHARS`. -/
def PREVIEW_CHARS : Nat := 500

/-- The default `probe_bytes` of `FileScanner._looks_like_text`. -/
def PROBE_BYTES : Nat := 1024

/-- `FileScanner._looks_like_text`: read up to 1024 bytes; a failing read
classifies the file as binary, a NUL byte in the probe classifies it as
binary, and otherwise the file is text.  The secondary lenient decode
(`chunk.decode("utf-8", errors="ignore")`) cannot raise and its result is
discarded by the source, so it does not appear in the model. -/
def looksLikeText (info : FileInfo) : Bool :=
  match info.bytes with
  | none => false
  | some bs => !((bs.take PROBE_BYTES).contains 0)

/-- Python `str.isspace` for the whitespace characters that matter here
(space, tab, carriage return, newline). -/
def pyIsSpace (c : Char) : Bool := c.isWhitespace

/-- Accumulator-style worker for Python `str.split()` (split on whitespace
runs, dropping empty fields).  `acc` holds the current in-progress word,
reversed. -/
def wordsAux (acc : Str) : Str → List Str
  | [] => if acc.isEmpty then [] else [acc.reverse]
  | c :: rest =>
    if pyIsSpace c then
      if acc.isEmpty then wordsAux [] rest else acc.reverse :: wordsAux [] rest
    else wordsAux (c :: acc) rest

/-- Python `text.split()`. -/
def words (s : Str) : List Str := wordsAux [] s

/-- Python `" ".join(ws)`. -/
def joinSpace : List Str → Str
  | [] => []
  | [w] => w
  | w :: ws => w ++ ' ' :: joinSpace ws

/-- `" ".join(text.split())` from `FileScanner._safe_read_preview`. -/
def collapseWs (s : Str) : Str := joinSpace (words s)

/-- `FileScanner._safe_read_preview`: read up to `chars` characters of the
leniently decoded file text, collapse whitespace; a failing read yields
`None`. -/
def safeReadPreview (info : FileInfo) (chars : Nat) : Option Str :=
  match info.text with
  | none => none
  | some t => some (collapseWs (t.take chars))

/-- The `FileMeta` record dataclass.  `path` is the absolute file path as a
component list (`parent` components followed by the name), `created` and
`modified` carry the raw stat timestamps (the local-time conversion
`_ts_to_dt` is an injective re-labelling with no arithmetic content). -/
structure FileMeta where
  path : List Str
  name : Str
  parent : List Str
  extension : Str
  size_bytes : Nat
  created : Int
  modified : Int
  is_text : Bool
  preview : Option Str
deriving DecidableEq

/-- `FileScanner.path_to_metadata`, for a file whose `stat` succeeded. -/
def path_to_metadata (dp : List Str) (name : Str) (info : FileInfo) : FileMeta :=
  let ext := extensionOf name
  let is_text := looksLikeText info
  let preview :=
    if is_text ∧ info.size ≤ SMALL_PREVIEW_LIMIT
    then safeReadPreview info PREVIEW_CHARS
    else none
  { path := dp ++ [name]
    name := name
    parent := dp
    extension := ext
    size_bytes := info.size
    created := info.ctime
    modified := info.mtime
    is_text := is_text
    preview := preview }

/-- The try/except body of `FileScanner.scan`: build the record, skipping
the file when `path.stat()` raises. -/
def buildYield (y : Yield) : Option FileMeta :=
  if y.statOk then some (path_to_metadata y.dir y.name y.info) else none

/-- `FileScanner.scan` on a root directory located at `root` whose
`os.scandir` returns `listing` (`none` when even the root listing raises,
in which case the generator is empty). -/
def scan (includeHidden : Bool) (root : List Str) (listing : Option (List FSNode)) :
    List FileMeta :=
  (match listing with
   | none => []
   | some l => iterList includeHidden root l).filterMap buildYield

/-- The construction-time failure of `FileScanner.__init__`. -/
inductive ScanError where
  | notFound
deriving DecidableEq

/-- The scanner configuration held after a successful construction. -/
structure Scanner where
  root : List Str
  includeHidden : Bool
  followSymlinks : Bool
deriving DecidableEq

/-- `FileScanner.__init__`: resolve the root (the resolved component list is
the input here) and fail exactly when it does not exist on disk. -/
def mkScanner (rootExists : Bool) (root : List Str)
    (includeHidden followSymlinks : Bool) : Except ScanError Scanner :=
  if rootExists then .ok ⟨root, includeHidden, followSymlinks⟩
  else .error .notFound

/-- Erase from a tree every entry the scanner's error handling absorbs: files
whose `stat` raises and directories whose listing raises (together with
everything beneath the latter). -/
def pruneList : List FSNode → List FSNode
  | [] => []
  | .file name ok info :: rest =>
      if ok then .file name ok info :: pruneList rest else pruneList rest
  | .dir _ none :: rest => pruneList rest
  | .dir name (some l) :: rest => .dir name (some (pruneList l)) :: pruneList rest
  | .other name :: rest => .other name :: pruneList rest

/-- Erase absorbed errors below a scan root; an unreadable root behaves like
an empty one. -/
def pruneTop : Option (List FSNode) → List FSNode
  | none => []
  | some l => pruneList l

/-- A yield item whose full absolute path — containing directory plus the
entry's own name — has no component beginning with a dot. -/
def visiblePath (y : Yield) : Bool :=
  !((y.dir ++ [y.name]).any startsWithDot)

/-- Boolean check that a string has no two consecutive whitespace
characters. -/
def noTwoWs : Str → Bool
  | [] => true
  | [_] => true
  | a :: b :: r => !(pyIsSpace a && pyIsSpace b) && noTwoWs (b :: r)

/-- Python `str.lstrip('.')`. -/
def lstripDot (s : Str) : Str := s.dropWhile (fun c => c = '.')

/-- `utils.filter_by_extensions`: normalize the wanted extensions
(lowercase, strip leading dots; the Python set comprehension only changes
duplicate handling, which list membership models identically) and keep the
records whose lowercased extension is among them. -/
def filter_by_extensions (items : List FileMeta) (exts : List Str) : List FileMeta :=
  let exts_lc := exts.map (fun e => lstripDot (pyLower e))
  items.filter (fun m => exts_lc.contains (pyLower m.extension))

/-- `utils.filter_larger_than`: `limit = max(0, min_kb) * 1024`; keep the
records with `size_bytes >= limit`. -/
def filter_larger_than (items : List FileMeta) (min_kb : Int) : List FileMeta :=
  let limit : Int := max 0 min_kb * 1024
  items.filter (fun m => decide (limit ≤ (m.size_bytes : Int)))

/-- `utils.only_text_files`. -/
def only_text_files (items : List FileMeta) : List FileMeta :=
  items.filter (fun m => m.is_text)

/-- The key order used by `sorted(..., key=key_func, reverse=reverse)`:
ascending keys when `reverse` is false, descending keys when it is true. -/
def keyLe {α β : Type} [LinearOrder β] (reverse : Bool) (key : α → β) (a b : α) : Prop :=
  match reverse with
  | false => key a ≤ key b
  | true => key b ≤ key a

instance keyLeDec {α β : Type} [LinearOrder β] (reverse : Bool) (key : α → β) :
    DecidableRel (keyLe reverse key) := fun a b => by
  cases reverse <;> simp only [keyLe] <;> infer_instance

/-- `utils.sort_by`: Python's `sorted` is a stable sort on the key order
(`reverse=True` keeps equal elements in input order too); a stable insertion
sort over the same total preorder computes the identical list. -/
def sort_by {α β : Type} [LinearOrder β] (items : List α) (key : α → β)
    (reverse : Bool) : List α :=
  List.insertionSort (keyLe reverse key) items

/-- `m.extension or "-"` from `utils.count_by_extension` (the empty string
is falsy in Python, so it is replaced by the dash inside this function). -/
def keyOf (m : FileMeta) : Str :=
  match m.extension with
  | [] => ['-']
  | e => e

/-- The distinct elements of a list in first-encountered order, skipping
those already in `seen`.  This is the key order of a Python
`Counter`/`dict`, whose iteration order is insertion order. -/
def firstOccsAux (seen : List Str) : List Str → List Str
  | [] => []
  | k :: rest =>
      if k ∈ seen then firstOccsAux seen rest
      else k :: firstOccsAux (k :: seen) rest

def firstOccs (l : List Str) : List Str := firstOccsAux [] l

/-- The `Counter` built by `utils.count_by_extension`, as an association
list in key-insertion order. -/
def extCounts (items : List FileMeta) : List (Str × Nat) :=
  (firstOccs (items.map keyOf)).map (fun k => (k, (items.map keyOf).count k))

/-- `utils.count_by_extension`: `Counter(...).most_common()` sorts the
counter's items by count, descending and stable (CPython implements it as
`sorted(..., key=itemgetter(1), reverse=True)`), and the dict comprehension
keeps that order. -/
def count_by_extension (items : List FileMeta) : List (Str × Nat) :=
  sort_by (extCounts items) (fun kv => kv.2) true

/-- Modelled from the words of the specification for the extension field:
"the lowercased suffix after the last '.' of the filename", and the empty
string when the filename has no dot at all. -/
def specExtension (name : Str) : Str :=
  match afterLastDot name with
  | none => []
  | some s => pyLower s

/-- A concrete root, file state and tree used to witness the scan-level
claims. -/
def demoInfo : FileInfo := ⟨11, 0, 0, some [104], some "hi".toList⟩

def demoRoot : List Str := [['h', 'o', 'm', 'e']]

def demoTree : List FSNode :=
  [FSNode.file "notes.txt".toList true demoInfo,
   FSNode.dir ".h".toList
     (some [FSNode.file "s.txt".toList true ⟨1, 0, 0, some [], none⟩])]

theorem visiblePath_mk (dp : List Str) (name : Str) (ok : Bool) (info : FileInfo) :
    visiblePath ⟨dp, name, ok, info⟩ = !(isHidden name dp) := by
  simp [visiblePath, isHidden, startsWithDot, Bool.or_comm]

/-- Every item yielded below a directory lives below that directory. -/
theorem iterList_dir_extends (ih : Bool) (dp : List Str) (l : List FSNode) :
    ∀ y ∈ iterList ih dp l, ∃ s, y.dir = dp ++ s := by
  match l with
  | [] => simp [iterList]
  | n :: rest =>
    intro y hy
    rw [iterList] at hy
    rcases List.mem_append.mp hy with h | h
    · match n with
      | .file name ok info =>
        rw [iterNode.eq_def] at h; simp only [] at h
        by_cases hh : (!ih && isHidden name dp) = true
        · simp [hh] at h
        · rw [if_neg hh] at h
          simp only [List.mem_singleton] at h
          exact ⟨[], by simp [h]⟩
      | .dir name listing =>
        rw [iterNode.eq_def] at h; simp only [] at h
        by_cases hh : (!ih && isHidden name dp) = true
        · simp [hh] at h
        · rw [if_neg hh] at h
          match listing with
          | none => simp at h
          | some l2 =>
            obtain ⟨s, hs⟩ := iterList_dir_extends ih (dp ++ [name]) l2 y h
            exact ⟨[name] ++ s, by simp [hs]⟩
      | .other name => rw [iterNode.eq_def] at h; simp only [] at h; simp at h
    · exact iterList_dir_extends ih dp rest y h
termination_by sizeOf l

/-- Below an entry that is hidden relative to `dp`, no yield item has a
dot-free absolute path. -/
theorem filter_visible_of_hidden (dp : List Str) (name : Str)
    (hhid : isHidden name dp = true) (l : List Yield)
    (hpre : ∀ y ∈ l, ∃ s, y.dir = (dp ++ [name]) ++ s) :
    l.filter visiblePath = [] := by
  rw [List.filter_eq_nil_iff]
  intro y hy
  obtain ⟨s, hs⟩ := hpre y hy
  suffices hh : (dp ++ [name] ++ s ++ [y.name]).any startsWithDot = true by
    simp only [visiblePath, hs, hh, Bool.not_true]
    exact Bool.false_ne_true
  rw [List.any_eq_true]
  rcases (by simpa [isHidden, List.any_eq_true] using hhid :
      startsWithDot name = true ∨ ∃ c ∈ dp, startsWithDot c = true) with h | ⟨c, hc, hcd⟩
  · exact ⟨name, by simp, h⟩
  · exact ⟨c, by simp [hc], hcd⟩

/-- With `include_hidden = false`, the traversal yields exactly those items
of the unfiltered traversal whose full absolute path is free of
dot-prefixed components. -/
theorem iterList_hidden_filter (dp : List Str) (l : List FSNode) :
    iterList false dp l = (iterList true dp l).filter visiblePath := by
  match l with
  | [] => simp [iterList]
  | n :: rest =>
    rw [iterList, iterList, List.filter_append, ← iterList_hidden_filter dp rest]
    congr 1
    match n with
    | .file name ok info =>
      cases hh : isHidden name dp <;> simp [iterNode, hh, visiblePath_mk]
    | .dir name listing =>
      match listing with
      | none => cases hh : isHidden name dp <;> simp [iterNode, hh]
      | some l2 =>
        have hrec := iterList_hidden_filter (dp ++ [name]) l2
        cases hh : isHidden name dp
        · simpa [iterNode, hh] using hrec
        · have hnil := filter_visible_of_hidden dp name hh _
            (iterList_dir_extends true (dp ++ [name]) l2)
          simp [iterNode, hh, hnil]
    | .other name => simp [iterNode]
termination_by sizeOf l

/-- C1: with `include_hidden = false`, an entry is skipped (with everything
beneath it, when it is a directory) exactly when its own name begins with
`'.'` or some ancestor directory — walked upward from its containing
directory to the filesystem root, not merely to the scan root — has a name
beginning with `'.'`: the filtered traversal equals the unfiltered traversal
restricted to items whose full absolute path has no dot-prefixed component;
consequently no yielded record's path contains a dot-prefixed component
anywhere up to the filesystem root. -/
theorem scan_hidden_policy :
    (∀ (dp : List Str) (l : List FSNode),
      iterList false dp l = (iterList true dp l).filter visiblePath)
  ∧ (∀ (root : List Str) (listing : Option (List FSNode)) (m : FileMeta),
      m ∈ scan false root listing → m.path.all (fun c => !startsWithDot c) = true) := by
  refine ⟨iterList_hidden_filter, ?_⟩
  intro root listing m hm
  match listing with
  | none => simp [scan] at hm
  | some l =>
    rw [scan] at hm
    obtain ⟨y, hy, hb⟩ := List.mem_filterMap.mp hm
    rw [iterList_hidden_filter] at hy
    have hvis : visiblePath y = true := (List.mem_filter.mp hy).2
    rw [buildYield] at hb
    by_cases hok : y.statOk = true
    · rw [if_pos hok] at hb
      have hpath : m.path = y.dir ++ [y.name] := by
        rw [← Option.some_inj.mp hb]
        rfl
      rw [hpath, List.all_eq_true]
      have hany := (by simpa [visiblePath] using hvis :
        (y.dir ++ [y.name]).any startsWithDot = false)
      intro c hc
      simp [List.any_eq_false.mp hany c hc]
    · rw [if_neg hok] at hb
      exact absurd hb (by simp)

theorem scan_hidden_policy_witness :
    path_to_metadata demoRoot "notes.txt".toList demoInfo ∈
      scan false demoRoot (some demoTree)
    ∧ (path_to_metadata demoRoot "notes.txt".toList demoInfo).path.all
        (fun c => !startsWithDot c) = true := by
  have hmem : path_to_metadata demoRoot "notes.txt".toList demoInfo ∈
      scan false demoRoot (some demoTree) := by decide
  exact ⟨hmem, scan_hidden_policy.2 demoRoot (some demoTree) _ hmem⟩

theorem filterMap_filter_of_none {α β : Type} {g : α → Option β} {p : α → Bool}
    (h : ∀ a, p a = false → g a = none) :
    ∀ l : List α, (l.filter p).filterMap g = l.filterMap g := by
  intro l
  induction l with
  | nil => rfl
  | cons a t iht =>
    by_cases hp : p a = true
    · simp [List.filter_cons, hp, List.filterMap_cons, iht]
    · have hp2 : p a = false := by simpa using hp
      simp [List.filter_cons, hp2, List.filterMap_cons, h a hp2, iht]

/-- Erasing the error entries of a tree leaves exactly the stat-successful
yield items of the original traversal. -/
theorem iterList_pruneList (ih : Bool) (dp : List Str) (l : List FSNode) :
    iterList ih dp (pruneList l) = (iterList ih dp l).filter (fun y => y.statOk) := by
  match l with
  | [] => simp [pruneList, iterList]
  | .file name ok info :: rest =>
    have hrest := iterList_pruneList ih dp rest
    cases ok <;>
      · simp [pruneList, iterList, iterNode, List.filter_append, hrest]
        try (by_cases hP : ih = false ∧ isHidden name dp = true <;> simp [hP])
  | .dir name none :: rest =>
    have hrest := iterList_pruneList ih dp rest
    simp [pruneList, iterList, iterNode, List.filter_append, hrest]
  | .dir name (some l2) :: rest =>
    have hrest := iterList_pruneList ih dp rest
    have hl2 := iterList_pruneList ih (dp ++ [name]) l2
    simp [pruneList, iterList, iterNode, List.filter_append, hrest, hl2]
    try (by_cases hP : ih = false ∧ isHidden name dp = true <;> simp [hP])
  | .other name :: rest =>
    have hrest := iterList_pruneList ih dp rest
    simp [pruneList, iterList, iterNode, hrest]
termination_by sizeOf l

/-- C4: constructing a scanner fails with the not-found error exactly when
the resolved root does not exist; and after construction the scan is a total
function on which OS-level failures are invisible: scanning a tree equals
scanning the same tree with every unreadable directory subtree and every
stat-failing file erased, so per-entry errors only omit records and never
surface. -/
theorem scanner_error_absorption :
    (∀ (e : Bool) (root : List Str) (ih fs : Bool),
      mkScanner e root ih fs = Except.error ScanError.notFound ↔ e = false)
  ∧ (∀ (ih : Bool) (root : List Str) (listing : Option (List FSNode)),
      scan ih root listing = scan ih root (some (pruneTop listing))) := by
  constructor
  · intro e root ih fs
    cases e <;> simp [mkScanner]
  · intro ih root listing
    match listing with
    | none => simp [scan, pruneTop, pruneList, iterList]
    | some l =>
      simp only [scan, pruneTop]
      rw [iterList_pruneList]
      exact (filterMap_filter_of_none (fun y hy => by simp [buildYield, hy]) _).symm

/-- C5: for every record built, the text classification inspects at most
the first 1024 bytes and classifies binary exactly when the probe read
failed or a NUL byte occurs in that probe; in every other case the file is
text (the discarded lenient decode cannot fail, so classification never
aborts the scan). -/
theorem text_probe_classification :
    ∀ (dp : List Str) (name : Str) (info : FileInfo),
      (path_to_metadata dp name info).is_text = false ↔
        (info.bytes = none ∨
          ∃ bs, info.bytes = some bs ∧ 0 ∈ bs.take PROBE_BYTES) := by
  intro dp name info
  show looksLikeText info = false ↔ _
  match hb : info.bytes with
  | none => simp [looksLikeText, hb]
  | some bs => simp [looksLikeText, hb]

/-- Every word produced by `str.split()` is nonempty and whitespace-free. -/
theorem wordsAux_good (l : Str) : ∀ (acc : Str), (∀ c ∈ acc, pyIsSpace c = false) →
    ∀ w ∈ wordsAux acc l, w ≠ [] ∧ ∀ c ∈ w, pyIsSpace c = false := by
  induction l with
  | nil =>
    intro acc hacc w hw
    rw [wordsAux] at hw
    by_cases he : acc.isEmpty = true
    · rw [if_pos he] at hw
      simp at hw
    · rw [if_neg he] at hw
      simp only [List.mem_singleton] at hw
      subst hw
      refine ⟨by simpa [List.isEmpty_iff] using he, ?_⟩
      intro c hc
      exact hacc c (List.mem_reverse.mp hc)
  | cons c rest ihr =>
    intro acc hacc w hw
    rw [wordsAux] at hw
    by_cases hsp : pyIsSpace c = true
    · rw [if_pos hsp] at hw
      by_cases he : acc.isEmpty = true
      · rw [if_pos he] at hw
        exact ihr [] (by simp) w hw
      · rw [if_neg he] at hw
        rcases List.mem_cons.mp hw with hwe | hw2
        · subst hwe
          refine ⟨by simpa [List.isEmpty_iff] using he, ?_⟩
          intro c2 hc2
          exact hacc c2 (List.mem_reverse.mp hc2)
        · exact ihr [] (by simp) w hw2
    · rw [if_neg hsp] at hw
      refine ihr (c :: acc) ?_ w hw
      intro c2 hc2
      rcases List.mem_cons.mp hc2 with hce | h2
      · subst hce
        simpa using hsp
      · exact hacc c2 h2

theorem words_good (s : Str) : ∀ w ∈ words s, w ≠ [] ∧ ∀ c ∈ w, pyIsSpace c = false :=
  wordsAux_good s [] (by simp)

/-- Prepending whitespace-free characters preserves the
no-consecutive-whitespace property. -/
theorem noTwoWs_append_of_spacefree (u : Str) (hu : ∀ c ∈ u, pyIsSpace c = false) :
    ∀ v : Str, noTwoWs v = true → noTwoWs (u ++ v) = true := by
  induction u with
  | nil => intro v hv; simpa using hv
  | cons c t iht =>
    intro v hv
    have hc : pyIsSpace c = false := hu c (by simp)
    have ht : ∀ c2 ∈ t, pyIsSpace c2 = false := fun c2 h2 => hu c2 (by simp [h2])
    have htv := iht ht v hv
    rw [List.cons_append]
    cases hcase : t ++ v with
    | nil => rw [noTwoWs]
    | cons b r =>
      rw [hcase] at htv
      rw [noTwoWs, hc]
      simpa using htv

/-- Joining nonempty whitespace-free words with single spaces yields a
string with no two consecutive whitespace characters, which moreover never
begins with a whitespace character. -/
theorem joinSpace_good (ws : List Str)
    (hws : ∀ w ∈ ws, w ≠ [] ∧ ∀ c ∈ w, pyIsSpace c = false) :
    noTwoWs (joinSpace ws) = true ∧
      ∀ c cs, joinSpace ws = c :: cs → pyIsSpace c = false := by
  match ws with
  | [] =>
    refine ⟨rfl, ?_⟩
    intro c cs h
    simp [joinSpace] at h
  | [w] =>
    obtain ⟨hne, hsf⟩ := hws w (by simp)
    have hjw : joinSpace [w] = w := by rw [joinSpace]
    refine ⟨?_, ?_⟩
    · rw [hjw]
      simpa using noTwoWs_append_of_spacefree w hsf [] rfl
    · intro c cs h
      rw [hjw] at h
      exact hsf c (by rw [h]; simp)
  | w :: w2 :: rest2 =>
    obtain ⟨hne, hsf⟩ := hws w (by simp)
    obtain ⟨ihn, ihh⟩ := joinSpace_good (w2 :: rest2) (fun x hx => hws x (by simp [hx]))
    obtain ⟨hw2ne, hw2sf⟩ := hws w2 (by simp)
    have hj : joinSpace (w :: w2 :: rest2) = w ++ ' ' :: joinSpace (w2 :: rest2) := by
      rw [joinSpace]
      simp
    obtain ⟨c0, cs0, hc0⟩ : ∃ c0 cs0, joinSpace (w2 :: rest2) = c0 :: cs0 := by
      match rest2 with
      | [] =>
        match w2, hw2ne with
        | c0 :: cs0, _ => exact ⟨c0, cs0, by rw [joinSpace]⟩
      | w3 :: rest3 =>
        rw [show joinSpace (w2 :: w3 :: rest3) = w2 ++ ' ' :: joinSpace (w3 :: rest3) by
          rw [joinSpace]
          simp]
        match w2, hw2ne with
        | c0 :: cs0, _ => exact ⟨c0, cs0 ++ ' ' :: joinSpace (w3 :: rest3), rfl⟩
    have hcs0 : pyIsSpace c0 = false := ihh c0 cs0 hc0
    have hmid : noTwoWs (' ' :: joinSpace (w2 :: rest2)) = true := by
      rw [hc0, noTwoWs, hcs0, ← hc0, ihn]
      simp
    refine ⟨?_, ?_⟩
    · rw [hj]
      exact noTwoWs_append_of_spacefree w hsf _ hmid
    · intro c cs h
      rw [hj] at h
      match w, hne with
      | cw :: tw, _ =>
        rw [List.cons_append] at h
        rw [List.cons_eq_cons] at h
        rw [← h.1]
        exact hsf cw (by simp)

/-- The whitespace-collapse of any string has no two consecutive
whitespace characters. -/
theorem collapseWs_noTwoWs (s : Str) : noTwoWs (collapseWs s) = true :=
  (joinSpace_good (words s) (words_good s)).1

/-- C2 (amended): `preview` is present iff the record is text, the size is
within the 1,000,000-byte cap, and the preview read itself succeeded; when
present it is the whitespace-collapse of at most the first 500 characters
of the file text and contains no two consecutive whitespace characters. -/
theorem preview_policy :
    ∀ (dp : List Str) (name : Str) (info : FileInfo),
      ((path_to_metadata dp name info).preview.isSome = true ↔
        ((path_to_metadata dp name info).is_text = true ∧
          info.size ≤ SMALL_PREVIEW_LIMIT ∧ info.text.isSome = true))
    ∧ ∀ p, (path_to_metadata dp name info).preview = some p →
        (∃ t, info.text = some t ∧ p = collapseWs (t.take PREVIEW_CHARS)) ∧
          noTwoWs p = true := by
  intro dp name info
  have hpv : (path_to_metadata dp name info).preview =
      if looksLikeText info = true ∧ info.size ≤ SMALL_PREVIEW_LIMIT
      then safeReadPreview info PREVIEW_CHARS else none := rfl
  have hit : (path_to_metadata dp name info).is_text = looksLikeText info := rfl
  rcases Decidable.em (looksLikeText info = true ∧ info.size ≤ SMALL_PREVIEW_LIMIT)
    with hc | hc
  · rw [if_pos hc] at hpv
    constructor
    · rw [hpv, hit]
      match ht : info.text with
      | none => simp [safeReadPreview, ht]
      | some t => simp [safeReadPreview, ht, hc.1, hc.2]
    · intro p hp
      rw [hpv] at hp
      match ht : info.text with
      | none =>
        simp [safeReadPreview, ht] at hp
      | some t =>
        simp only [safeReadPreview, ht, Option.some_inj] at hp
        refine ⟨⟨t, rfl, hp.symm⟩, ?_⟩
        rw [← hp]
        exact collapseWs_noTwoWs _
  · rw [if_neg hc] at hpv
    constructor
    · rw [hpv, hit]
      refine iff_of_false (by simp) ?_
      intro hr
      exact hc ⟨hr.1, hr.2.1⟩
    · intro p hp
      rw [hpv] at hp
      exact absurd hp (by simp)

/-- C2 counterexample: a file whose binary probe succeeds with no NUL byte
(hence `is_text = true`) and whose size is within the cap still gets no
preview when the separate preview read fails, so "present if and only if
is_text and size within cap" is false. -/
theorem preview_iff_counterexample :
    (path_to_metadata [] "a.txt".toList ⟨0, 0, 0, some [], none⟩).is_text = true
    ∧ (path_to_metadata [] "a.txt".toList ⟨0, 0, 0, some [], none⟩).size_bytes ≤ 1000000
    ∧ (path_to_metadata [] "a.txt".toList ⟨0, 0, 0, some [], none⟩).preview = none := by
  decide

theorem preview_policy_witness :
    (path_to_metadata [] "b.txt".toList
        ⟨4, 0, 0, some [104], some ['h', ' ', ' ', 'i']⟩).preview = some ['h', ' ', 'i']
    ∧ noTwoWs ['h', ' ', 'i'] = true := by
  refine ⟨by decide, ?_⟩
  exact ((preview_policy [] "b.txt".toList
      ⟨4, 0, 0, some [104], some ['h', ' ', ' ', 'i']⟩).2
    ['h', ' ', 'i'] (by decide)).2

/-- C6: `filterLargerThan` keeps exactly the records whose size reaches
`max(0, minKilobytes) * 1024` bytes (inclusive boundary), and a
non-positive threshold is clamped to zero so that no record is dropped. -/
theorem filter_larger_than_spec :
    (∀ (items : List FileMeta) (k : Int) (m : FileMeta),
      m ∈ filter_larger_than items k ↔
        m ∈ items ∧ max 0 k * 1024 ≤ (m.size_bytes : Int))
    ∧ ∀ (items : List FileMeta) (k : Int), k ≤ 0 →
        filter_larger_than items k = items := by
  constructor
  · intro items k m
    simp [filter_larger_than, List.mem_filter]
  · intro items k hk
    simp only [filter_larger_than, max_eq_left hk, zero_mul]
    rw [List.filter_eq_self]
    intro m hm
    simp [Int.natCast_nonneg]

theorem filter_larger_than_witness :
    ((-5 : Int) ≤ 0 ∧
      filter_larger_than [⟨[], [], [], [], 7, 0, 0, true, none⟩] (-5) =
        [⟨[], [], [], [], 7, 0, 0, true, none⟩])
    ∧ (⟨[], [], [], [], 524288, 0, 0, true, none⟩ : FileMeta) ∈
        filter_larger_than
          [⟨[], [], [], [], 524288, 0, 0, true, none⟩,
           ⟨[], [], [], [], 524287, 0, 0, true, none⟩] 512
    ∧ (⟨[], [], [], [], 524287, 0, 0, true, none⟩ : FileMeta) ∉
        filter_larger_than
          [⟨[], [], [], [], 524288, 0, 0, true, none⟩,
           ⟨[], [], [], [], 524287, 0, 0, true, none⟩] 512 := by
  refine ⟨⟨by decide, filter_larger_than_spec.2 _ _ (by decide)⟩, ?_, ?_⟩
  · exact (filter_larger_than_spec.1 _ _ _).mpr (by decide)
  · intro h
    exact absurd ((filter_larger_than_spec.1 _ _ _).mp h).2 (by decide)

/-- C10: each of the three filter transforms returns an order-preserving
subsequence of its input: a subset of the input records in their input
order, none duplicated or altered. -/
theorem filters_sublist :
    (∀ (items : List FileMeta) (exts : List Str),
      List.Sublist (filter_by_extensions items exts) items)
    ∧ (∀ (items : List FileMeta) (k : Int),
        List.Sublist (filter_larger_than items k) items)
    ∧ ∀ items : List FileMeta, List.Sublist (only_text_files items) items :=
  ⟨fun _ _ => List.filter_sublist _, fun _ _ => List.filter_sublist _,
   fun _ => List.filter_sublist _⟩

instance keyLeTotal {α β : Type} [LinearOrder β] (reverse : Bool) (key : α → β) :
    IsTotal α (keyLe reverse key) := by
  constructor
  intro a b
  cases reverse <;> simp only [keyLe] <;> exact le_total _ _

instance keyLeTrans {α β : Type} [LinearOrder β] (reverse : Bool) (key : α → β) :
    IsTrans α (keyLe reverse key) := by
  constructor
  intro a b c hab hbc
  cases reverse <;> simp only [keyLe] at hab hbc ⊢
  · exact le_trans hab hbc
  · exact le_trans hbc hab

/-- Inserting `a` into `l` in order places it after every element it must
not precede, so filtering by a predicate whose holders are all reachable by
`a` splits off `a` first. -/
theorem filter_orderedInsert {α : Type} (r : α → α → Prop) [DecidableRel r]
    (p : α → Bool) (a : α) :
    ∀ l : List α, (p a = true → ∀ b ∈ l, p b = true → r a b) →
      (List.orderedInsert r a l).filter p =
        if p a then a :: l.filter p else l.filter p := by
  intro l
  induction l with
  | nil =>
    intro _
    cases hpa : p a <;> simp [List.orderedInsert, List.filter_cons, hpa]
  | cons b t ihb =>
    intro h
    have hsub : p a = true → ∀ c ∈ t, p c = true → r a c :=
      fun hpa c hc hpc => h hpa c (by simp [hc]) hpc
    rw [List.orderedInsert]
    by_cases hr : r a b
    · rw [if_pos hr]
      cases hpa : p a <;> simp [List.filter_cons, hpa]
    · rw [if_neg hr]
      cases hpa : p a
      · rw [List.filter_cons, ihb hsub, hpa]
        simp [List.filter_cons]
      · have hpb : p b = false := by
          cases hpb2 : p b
          · rfl
          · exact absurd (h hpa b (by simp) hpb2) hr
        rw [List.filter_cons, ihb hsub, hpa, hpb]
        simp [List.filter_cons, hpb]

/-- Stability of insertion sort, as a filter characterization: filtering by
a predicate whose holders are pairwise related leaves them in their input
order. -/
theorem filter_insertionSort {α : Type} (r : α → α → Prop) [DecidableRel r]
    (p : α → Bool) (hp : ∀ a b, p a = true → p b = true → r a b) :
    ∀ l : List α, (List.insertionSort r l).filter p = l.filter p := by
  intro l
  induction l with
  | nil => rfl
  | cons a t iht =>
    rw [List.insertionSort,
      filter_orderedInsert r p a _ (fun hpa b hb hpb => hp a b hpa hpb),
      iht, List.filter_cons]

/-- C8: `sortBy` returns a new sequence that is a permutation of the input,
sorted by the key in the requested direction, and stable: the records
holding any fixed key value appear in their input order.  (The embedding is
a pure function, so the input collection itself is untouched.) -/
theorem sort_by_spec {β : Type} [LinearOrder β] :
    ∀ (items : List FileMeta) (key : FileMeta → β) (reverse : Bool),
      List.Perm (sort_by items key reverse) items
    ∧ List.Sorted (keyLe reverse key) (sort_by items key reverse)
    ∧ ∀ c : β, (sort_by items key reverse).filter (fun m => decide (key m = c)) =
        items.filter (fun m => decide (key m = c)) := by
  intro items key reverse
  refine ⟨List.perm_insertionSort _ _, List.sorted_insertionSort _ _, ?_⟩
  intro c
  apply filter_insertionSort
  intro a b ha hb
  have ha2 : key a = c := of_decide_eq_true ha
  have hb2 : key b = c := of_decide_eq_true hb
  cases reverse <;> simp [keyLe, ha2, hb2]

/-- C7: `countByExtension` lists extensions from most frequent to least
frequent (sorted descending on the count), equal counts keep the order in
which their extension was first encountered (the filter by any fixed count
equals the same filter of the insertion-ordered counter), and the
`{a.txt, b.txt, c.md}` example yields `txt ↦ 2` before `md ↦ 1`. -/
theorem count_by_extension_order :
    (∀ items : List FileMeta,
      List.Sorted (keyLe true (fun kv : Str × Nat => kv.2)) (count_by_extension items)
      ∧ ∀ c : Nat, (count_by_extension items).filter (fun kv => decide (kv.2 = c)) =
          (extCounts items).filter (fun kv => decide (kv.2 = c)))
    ∧ count_by_extension
        [⟨[], "a.txt".toList, [], "txt".toList, 1, 0, 0, true, none⟩,
         ⟨[], "b.txt".toList, [], "txt".toList, 1, 0, 0, true, none⟩,
         ⟨[], "c.md".toList, [], "md".toList, 1, 0, 0, true, none⟩] =
        [("txt".toList, 2), ("md".toList, 1)] := by
  constructor
  · intro items
    refine ⟨List.sorted_insertionSort _ _, ?_⟩
    intro c
    apply filter_insertionSort
    intro a b ha hb
    simp [keyLe, of_decide_eq_true ha, of_decide_eq_true hb]
  · decide

/-- Membership in the first-occurrence list: present iff present in the
input and not already seen. -/
theorem firstOccsAux_mem (l : List Str) : ∀ (seen : List Str) (k : Str),
    k ∈ firstOccsAux seen l ↔ k ∈ l ∧ k ∉ seen := by
  induction l with
  | nil => simp [firstOccsAux]
  | cons a t iht =>
    intro seen k
    rw [firstOccsAux]
    by_cases ha : a ∈ seen
    · rw [if_pos ha, iht]
      constructor
      · exact fun h => ⟨by simp [h.1], h.2⟩
      · rintro ⟨h1, h2⟩
        rcases List.mem_cons.mp h1 with he | h3
        · exact absurd (he ▸ ha) h2
        · exact ⟨h3, h2⟩
    · rw [if_neg ha]
      constructor
      · intro hm
        rcases List.mem_cons.mp hm with he | h3
        · exact ⟨by simp [he], he ▸ ha⟩
        · have h4 := (iht (a :: seen) k).mp h3
          exact ⟨by simp [h4.1], fun hs => h4.2 (by simp [hs])⟩
      · rintro ⟨h1, h2⟩
        rcases List.mem_cons.mp h1 with he | h3
        · exact he ▸ List.mem_cons_self _ _
        · by_cases hk : k = a
          · exact hk ▸ List.mem_cons_self _ _
          · exact List.mem_cons.mpr
              (Or.inr ((iht _ k).mpr ⟨h3, by simp [hk, h2]⟩))

theorem firstOccsAux_nodup (l : List Str) : ∀ seen : List Str,
    (firstOccsAux seen l).Nodup := by
  induction l with
  | nil => intro seen; simp [firstOccsAux]
  | cons a t iht =>
    intro seen
    rw [firstOccsAux]
    by_cases ha : a ∈ seen
    · rw [if_pos ha]; exact iht seen
    · rw [if_neg ha]
      refine List.nodup_cons.mpr ⟨?_, iht _⟩
      intro hmem
      exact ((firstOccsAux_mem t _ a).mp hmem).2 (by simp)

theorem firstOccs_mem (l : List Str) (k : Str) : k ∈ firstOccs l ↔ k ∈ l := by
  rw [firstOccs, firstOccsAux_mem]
  simp

theorem firstOccs_nodup (l : List Str) : (firstOccs l).Nodup := firstOccsAux_nodup l []

theorem extCounts_fst (items : List FileMeta) :
    (extCounts items).map Prod.fst = firstOccs (items.map keyOf) := by
  rw [extCounts, List.map_map]
  exact List.map_id _

theorem mem_extCounts (items : List FileMeta) (k : Str) (n : Nat) :
    (k, n) ∈ extCounts items ↔
      k ∈ items.map keyOf ∧ n = (items.map keyOf).count k := by
  rw [extCounts, List.mem_map]
  constructor
  · rintro ⟨x, hx, he⟩
    rw [Prod.mk.injEq] at he
    exact ⟨he.1 ▸ (firstOccs_mem _ x).mp hx, by rw [← he.2, he.1]⟩
  · rintro ⟨h1, h2⟩
    exact ⟨k, (firstOccs_mem _ k).mpr h1, by rw [h2]⟩

/-- On an association list with no duplicate keys, `lookup` finds exactly
the pairs of the list. -/
theorem lookup_eq_some_of_nodup {α β : Type} [BEq α] [LawfulBEq α] :
    ∀ {l : List (α × β)}, (l.map Prod.fst).Nodup → ∀ (k : α) (v : β),
      (l.lookup k = some v ↔ (k, v) ∈ l) := by
  intro l
  induction l with
  | nil => simp [List.lookup]
  | cons kv t iht =>
    obtain ⟨k1, v1⟩ := kv
    intro h k v
    simp only [List.map_cons, List.nodup_cons] at h
    rw [List.lookup]
    by_cases hk : k = k1
    · subst hk
      rw [show (k == k) = true by simp]
      constructor
      · intro hv
        simp only [Option.some_inj] at hv
        exact hv ▸ List.mem_cons_self _ _
      · intro hm
        rcases List.mem_cons.mp hm with he | ht2
        · rw [Prod.mk.injEq] at he
          rw [he.2]
        · exact absurd (List.mem_map.mpr ⟨(k, v), ht2, rfl⟩) h.1
    · rw [show (k == k1) = false by simp [hk]]
      rw [iht h.2 k v]
      constructor
      · exact fun hm => List.mem_cons.mpr (Or.inr hm)
      · intro hm
        rcases List.mem_cons.mp hm with he | ht2
        · rw [Prod.mk.injEq] at he
          exact absurd he.1 hk
        · exact ht2

/-- C3 (amended): `countByExtension` keys the records whose extension is
empty under the dash placeholder itself — the replacement happens inside
this function, not at presentation time — and maps every key to the exact
number of records bearing it: a lookup returns `n` exactly when `n` is the
positive count of records whose (dash-defaulted) extension is that key, and
the empty-string key is never present. -/
theorem count_by_extension_keys :
    (∀ (items : List FileMeta) (k : Str) (n : Nat),
      (count_by_extension items).lookup k = some n ↔
        ((items.map keyOf).count k = n ∧ 0 < n))
    ∧ ∀ items : List FileMeta,
        (count_by_extension items).lookup ([] : Str) = none := by
  have main : ∀ (items : List FileMeta) (k : Str) (n : Nat),
      (count_by_extension items).lookup k = some n ↔
        ((items.map keyOf).count k = n ∧ 0 < n) := by
    intro items k n
    have hperm : List.Perm (count_by_extension items) (extCounts items) :=
      List.perm_insertionSort _ _
    have hnodup : ((count_by_extension items).map Prod.fst).Nodup := by
      refine ((hperm.map Prod.fst).nodup_iff).mpr ?_
      rw [extCounts_fst]
      exact firstOccs_nodup _
    rw [lookup_eq_some_of_nodup hnodup, hperm.mem_iff, mem_extCounts]
    constructor
    · rintro ⟨h1, h2⟩
      exact ⟨h2.symm, h2 ▸ List.count_pos_iff.mpr h1⟩
    · rintro ⟨h1, h2⟩
      exact ⟨List.count_pos_iff.mp (h1 ▸ h2), h1.symm⟩
  refine ⟨main, ?_⟩
  intro items
  cases hl : (count_by_extension items).lookup ([] : Str) with
  | none => rfl
  | some n =>
    have h := (main items [] n).mp hl
    have hmem : ([] : Str) ∈ items.map keyOf :=
      List.count_pos_iff.mp (h.1 ▸ h.2)
    obtain ⟨m, _, hk⟩ := List.mem_map.mp hmem
    cases hme : m.extension with
    | nil => simp [keyOf, hme] at hk
    | cons c e2 => simp [keyOf, hme] at hk

/-- C3 counterexample: a record with an empty extension is keyed under the
dash by `count_by_extension` itself; the empty string is not a key. -/
theorem count_by_extension_dash_counterexample :
    count_by_extension [⟨[], "README".toList, [], [], 5, 0, 0, true, none⟩] =
      [(['-'], 1)]
    ∧ (count_by_extension
        [⟨[], "README".toList, [], [], 5, 0, 0, true, none⟩]).lookup ([] : Str) =
      none := by
  decide

theorem uint32_le_iff_toNat_le {a b : UInt32} : a ≤ b ↔ a.toNat ≤ b.toNat := Iff.rfl

theorem char_toNat_ofNat_valid {n : Nat} (h : n < 55296) : (Char.ofNat n).toNat = n := by
  unfold Char.ofNat
  rw [dif_pos (Or.inl h)]
  rfl

theorem isUpper_iff_toNat (c : Char) :
    c.isUpper = true ↔ 65 ≤ c.toNat ∧ c.toNat ≤ 90 := by
  have h65 : (65 : UInt32).toNat = 65 := by decide
  have h90 : (90 : UInt32).toNat = 90 := by decide
  rw [Char.isUpper, Bool.and_eq_true, decide_eq_true_iff, decide_eq_true_iff]
  rw [ge_iff_le, uint32_le_iff_toNat_le, uint32_le_iff_toNat_le, h65, h90]
  exact Iff.rfl

/-- Lowercasing never produces an ASCII uppercase letter. -/
theorem toLower_not_upper (c : Char) : (Char.toLower c).isUpper = false := by
  simp only [Char.toLower, Char.toNat]
  by_cases h : c.val.toNat ≥ 65 ∧ c.val.toNat ≤ 90
  · rw [if_pos h, Bool.eq_false_iff]
    intro hu
    rw [isUpper_iff_toNat] at hu
    rw [show (Char.ofNat (c.val.toNat + 32)).toNat = c.val.toNat + 32 from
      char_toNat_ofNat_valid (by omega)] at hu
    omega
  · rw [if_neg h, Bool.eq_false_iff]
    intro hu
    rw [isUpper_iff_toNat] at hu
    exact h (by exact ⟨hu.1, hu.2⟩)

/-- Lowercasing maps only the dot to the dot. -/
theorem toLower_eq_dot_iff (c : Char) : Char.toLower c = '.' ↔ c = '.' := by
  have hdot : ('.' : Char).toNat = 46 := by decide
  simp only [Char.toLower, Char.toNat]
  by_cases h : c.val.toNat ≥ 65 ∧ c.val.toNat ≤ 90
  · rw [if_pos h]
    constructor
    · intro he
      have h2 : (Char.ofNat (c.val.toNat + 32)).toNat = ('.' : Char).toNat := by rw [he]
      rw [char_toNat_ofNat_valid (by omega), hdot] at h2
      omega
    · intro he
      rw [he] at h
      rw [show ('.' : Char).val.toNat = 46 from hdot] at h
      omega
  · rw [if_neg h]

theorem afterLastDot_none : ∀ l : Str, afterLastDot l = none → '.' ∉ l := by
  intro l
  induction l with
  | nil => simp
  | cons c rest ihr =>
    intro h
    rw [afterLastDot] at h
    cases hr : afterLastDot rest with
    | some s2 => rw [hr] at h; simp at h
    | none =>
      rw [hr] at h
      by_cases hc : c = '.'
      · rw [if_pos hc] at h; simp at h
      · rw [if_neg hc] at h
        intro hm
        rcases List.mem_cons.mp hm with he | h2
        · exact hc he.symm
        · exact ihr hr h2

/-- The characters after the last dot contain no dot. -/
theorem afterLastDot_no_dot : ∀ (l : Str) (s : Str),
    afterLastDot l = some s → '.' ∉ s := by
  intro l
  induction l with
  | nil => intro s h; simp [afterLastDot] at h
  | cons c rest ihr =>
    intro s h
    rw [afterLastDot] at h
    cases hr : afterLastDot rest with
    | some s2 =>
      rw [hr] at h
      simp only [Option.some_inj] at h
      exact h ▸ ihr s2 hr
    | none =>
      rw [hr] at h
      by_cases hc : c = '.'
      · rw [if_pos hc] at h
        simp only [Option.some_inj] at h
        exact h ▸ afterLastDot_none rest hr
      · rw [if_neg hc] at h
        simp at h

theorem pySuffix_eq_none (name : Str) (ha : afterLastDot name = none) :
    pySuffix name = [] := by
  rw [pySuffix, ha]

theorem pySuffix_eq_some (name s0 : Str) (ha : afterLastDot name = some s0) :
    pySuffix name =
      if s0 ≠ [] ∧ s0.length + 1 < name.length then '.' :: s0 else [] := by
  rw [pySuffix, ha]

theorem pySuffix_cases (name : Str) (d : Char) (s : Str) (h : pySuffix name = d :: s) :
    d = '.' ∧ afterLastDot name = some s ∧ s ≠ [] ∧ s.length + 1 < name.length := by
  cases ha : afterLastDot name with
  | none =>
    rw [pySuffix_eq_none name ha] at h
    exact absurd h (by simp)
  | some s0 =>
    rw [pySuffix_eq_some name s0 ha] at h
    by_cases hc : s0 ≠ [] ∧ s0.length + 1 < name.length
    · rw [if_pos hc] at h
      rw [List.cons_eq_cons] at h
      refine ⟨h.1.symm, ?_, ?_, ?_⟩
      · rw [← h.2]
      · rw [← h.2]; exact hc.1
      · rw [← h.2]; exact hc.2
    · rw [if_neg hc] at h
      exact absurd h (by simp)

/-- C9 (amended): every record's extension contains no ASCII uppercase
letter and no dot (in particular it never begins with one); it is empty
when the filename contains no dot; it equals the claimed "lowercased
suffix after the last dot" whenever that dot is neither the first nor the
last character of the filename; and in those two exceptional positions —
a dotfile such as `.bashrc` (the characters after the last dot are the
whole rest of the name) or a name ending in a dot (no characters after
the last dot) — the extension is empty instead.  The last three conjuncts
cover every filename, so they characterize the extension completely. -/
theorem extension_invariants :
    ∀ (dp : List Str) (name : Str) (info : FileInfo),
      (∀ c ∈ (path_to_metadata dp name info).extension, c.isUpper = false)
      ∧ ('.' ∉ (path_to_metadata dp name info).extension)
      ∧ (afterLastDot name = none → (path_to_metadata dp name info).extension = [])
      ∧ (∀ s, afterLastDot name = some s → s ≠ [] → s.length + 1 < name.length →
          (path_to_metadata dp name info).extension = specExtension name)
      ∧ (∀ s, afterLastDot name = some s → (s = [] ∨ ¬ s.length + 1 < name.length) →
          (path_to_metadata dp name info).extension = []) := by
  intro dp name info
  have hext : (path_to_metadata dp name info).extension = extensionOf name := rfl
  rw [hext]
  refine ⟨?_, ?_, ?_, ?_, ?_⟩
  · intro c hc
    cases hps : pySuffix name with
    | nil => simp [extensionOf, hps] at hc
    | cons d s =>
      simp only [extensionOf, hps, pyLower] at hc
      obtain ⟨c0, _, he⟩ := List.mem_map.mp hc
      rw [← he]
      exact toLower_not_upper c0
  · intro hc
    cases hps : pySuffix name with
    | nil => simp [extensionOf, hps] at hc
    | cons d s =>
      simp only [extensionOf, hps, pyLower] at hc
      obtain ⟨c0, hc0, he⟩ := List.mem_map.mp hc
      have hc0d : c0 = '.' := (toLower_eq_dot_iff c0).mp he
      obtain ⟨_, ha, _, _⟩ := pySuffix_cases name d s hps
      exact afterLastDot_no_dot name s ha (hc0d ▸ hc0)
  · intro hn
    simp [extensionOf, pySuffix, hn]
  · intro s hs hne hlen
    simp [extensionOf, pySuffix, specExtension, hs, hne, hlen]
  · intro s hs hexc
    have hcond : ¬(s ≠ [] ∧ s.length + 1 < name.length) := by
      rcases hexc with he | hl
      · exact fun hand => hand.1 he
      · exact fun hand => hl hand.2
    rw [extensionOf, pySuffix_eq_some name s hs, if_neg hcond]

/-- C9 counterexample: for the dotfile name `.bashrc` the record's
extension is empty, while the claimed "lowercased suffix after the last
dot" is `bashrc`. -/
theorem extension_dotfile_counterexample :
    (path_to_metadata [] ".bashrc".toList ⟨0, 0, 0, some [], none⟩).extension = []
    ∧ specExtension ".bashrc".toList = "bashrc".toList
    ∧ ("bashrc".toList : Str) ≠ [] := by
  decide

theorem extension_invariants_witness :
    (afterLastDot "A.TXT".toList = some "TXT".toList
    ∧ (path_to_metadata [] "A.TXT".toList ⟨0, 0, 0, some [], none⟩).extension =
        specExtension "A.TXT".toList)
    ∧ (afterLastDot "file.".toList = some []
    ∧ (path_to_metadata [] "file.".toList ⟨0, 0, 0, some [], none⟩).extension = [])
    ∧ (afterLastDot ".vimrc".toList = some "vimrc".toList
    ∧ ¬ "vimrc".toList.length + 1 < ".vimrc".toList.length
    ∧ (path_to_metadata [] ".vimrc".toList ⟨0, 0, 0, some [], none⟩).extension = []) := by
  refine ⟨⟨by decide, ?_⟩, ⟨by decide, ?_⟩, ⟨by decide, by decide, ?_⟩⟩
  · exact (extension_invariants [] "A.TXT".toList ⟨0, 0, 0, some [], none⟩).2.2.2.1
      "TXT".toList (by decide) (by decide) (by decide)
  · exact (extension_invariants [] "file.".toList ⟨0, 0, 0, some [], none⟩).2.2.2.2
      [] (by decide) (Or.inl rfl)
  · exact (extension_invariants [] ".vimrc".toList ⟨0, 0, 0, some [], none⟩).2.2.2.2
      "vimrc".toList (by decide) (Or.inr (by decide))
